import Mathlib

/-
Verification of the string-addressable reflection demo (src/demo.cpp).

Strings are modelled as lists of characters (`Str`).  The C++ helpers
`std::string::find` + `substr` become `breakAt`, the `std::getline`
tokenizer becomes `splitAll`/`tokenize`.  `boost::lexical_cast<int>` is
modelled by `parseIntLC`, `std::to_string`/`lexical_cast<std::string>`
by `intToStr`.  The example types `Record` and `A` (with their custom
`TypeTraits` specializations) become `RecordObj`/`AObj` together with
their text codecs, and `ReflectionParser::parseAndExecute` becomes the
fuel-indexed function `go` (the fuel only bounds the self-recursive call
at demo.cpp:337; `parseAndExecute` instantiates it with enough fuel).
The registries `ObjectRegistry<A>` / `ObjectRegistry<Record>` are the
two association lists of `DispState`.

The dispatcher is modelled twice.  `go`/`parseAndExecute` use the
member map that the `REFLECT_MEMBER` declarations describe — the
reflection the spec and the demo's asserts assume.  The artifact as
actually compiled behaves differently: `_reflect_members`
(demo.cpp:177-180) reads `count = REFLECT_COUNTER`, and `__COUNTER__`
is expanded by the preprocessor exactly once, at its single textual
occurrence inside the class template, before any `REFLECT_MEMBER`
expansion — so `count = 0` for every derived type and every reflected
member map is empty.  `parseAndExecuteCompiled` models that artifact:
each `members.find` fails, every command ends in member-not-found, and
`setValue`/`getValue` are never called.
-/

namespace Demo

abbrev Str := List Char

/-- `s.find(c)` followed by the two `substr` calls: split `l` at the first
occurrence of `c`, returning `none` when `c` does not occur. -/
def breakAt (c : Char) : Str → Option (Str × Str)
  | [] => none
  | x :: xs =>
    if x = c then some ([], xs)
    else (breakAt c xs).map (fun p => (x :: p.1, p.2))

/-- The pieces produced by `std::getline(iss, token, ' ')`. -/
def splitAll : Str → List Str
  | [] => [[]]
  | x :: xs =>
    if x = ' ' then [] :: splitAll xs
    else
      match splitAll xs with
      | [] => [[x]]
      | t :: ts => (x :: t) :: ts

/-- `ReflectionParser::tokenize`: split on spaces, dropping empty tokens. -/
def tokenize (cmd : Str) : List Str :=
  (splitAll cmd).filter (fun t => t ≠ [])

def isDigitCh (c : Char) : Bool := '0' ≤ c && c ≤ '9'

def digitsToNat (ds : Str) : Nat :=
  ds.foldl (fun n c => 10 * n + (c.toNat - '0'.toNat)) 0

/-- `boost::lexical_cast<int>`: an optional sign followed by a
non-empty run of decimal digits, the value required to fit a 32-bit
`int` (`lexical_cast` throws `bad_lexical_cast` on overflow); any other
input throws (here: `none`). -/
def parseIntLC (s : Str) : Option Int :=
  match s with
  | [] => none
  | '-' :: ds =>
    if ds ≠ [] ∧ ds.all isDigitCh ∧ digitsToNat ds ≤ 2147483648 then
      some (-(digitsToNat ds : Int))
    else none
  | '+' :: ds =>
    if ds ≠ [] ∧ ds.all isDigitCh ∧ digitsToNat ds ≤ 2147483647 then
      some ((digitsToNat ds : Int))
    else none
  | ds =>
    if ds.all isDigitCh ∧ digitsToNat ds ≤ 2147483647 then
      some ((digitsToNat ds : Int))
    else none

/-- `std::to_string` / `boost::lexical_cast<std::string>` on an int. -/
def intToStr (i : Int) : Str := (toString i).toList

/-- The fields declared by `REFLECT_MEMBER` on `Record`. -/
structure RecordObj where
  a : Int
  b : Str
deriving DecidableEq

/-- `TypeTraits<Record>::toString`. -/
def recordToStr (r : RecordObj) : Str := intToStr r.a ++ ',' :: r.b

/-- `TypeTraits<Record>::fromString`, value part: without a comma the
default-valued record is returned; with a comma the prefix must
lexical_cast to int (an exception becomes `none`).  The C++ function
also has side effects this model drops: the local `Record r("default")`
registers itself in `ObjectRegistry<Record>` under `"default"`
(clobbering any previous entry) and its destruction unregisters that
key again, and the returned record carries `_object_id == "default"`
into whatever field it is copy-assigned to.  No remaining theorem
exercises those effects: in the compiled program `fromString` is
unreachable from the dispatcher (the member map is empty, so
`setValue` is never called). -/
def recordFromStr (s : Str) : Option RecordObj :=
  match breakAt ',' s with
  | none => some ⟨0, []⟩
  | some (pre, post) =>
    match parseIntLC pre with
    | some n => some ⟨n, post⟩
    | none => none

/-- The fields of class `A`: reflected members `a` and `d`, plus the
plain member `nonreflectable` that has no `REFLECT_MEMBER` descriptor. -/
structure AObj where
  a : Int
  d : RecordObj
  nonreflectable : Str
deriving DecidableEq

/-- The mutable world the dispatcher can reach: `ObjectRegistry<A>` and
`ObjectRegistry<Record>`, each a map from identifier to the referenced
object's state. -/
structure DispState where
  aObjs : List (Str × AObj)
  recObjs : List (Str × RecordObj)
deriving DecidableEq

/-- `std::map::find` on an association list. -/
def lookupM {α : Type} : List (Str × α) → Str → Option α
  | [], _ => none
  | p :: ps, k => if p.1 = k then some p.2 else lookupM ps k

/-- Mutation through the pointer stored in the registry: rewrite the
object registered under `k`. -/
def updateM {α : Type} (m : List (Str × α)) (k : Str) (f : α → α) : List (Str × α) :=
  m.map (fun p => if p.1 = k then (p.1, f p.2) else p)

/-- `MemberInfo<T>::setValue`: try `fromString`; on success assign and
return true, on a conversion exception leave the field unchanged and
return false. -/
def memberSetValue {α : Type} (fromText : Str → Option α) (value : Str) (field : α) :
    Bool × α :=
  match fromText value with
  | some w => (true, w)
  | none => (false, field)

/-- `MemberInfo<T>::getValue`: render the bound field with `toString`. -/
def memberGetValue {α : Type} (toText : α → Str) (field : α) : Str := toText field

/-- `ReflectionParser::parseAndExecute`, fuel-indexed, under the
member map that the `REFLECT_MEMBER` declarations of `A` describe
(`"a"` and `"d"`) — the reflection the spec intends and the demo's
asserts assume.  The compiled artifact's reflected map is empty
instead (see `reflectA` and `parseAndExecuteCompiled`); the theorems
stated over `go` are ones whose truth does not depend on that
difference.  The fuel only feeds the self-recursive call for nested
paths (demo.cpp:337); every other control path is a direct translation
of demo.cpp:298-358. -/
def go : Nat → DispState → Str → Str × DispState
  | 0, st, _ => ([], st)
  | fuel + 1, st, cmd =>
    match tokenize cmd with
    | [] => ([], st)
    | [_] => ([], st)
    | operation :: pathSpec0 :: _ =>
      let pv : Option (Str × Str) :=
        if operation = "set".toList then
          match breakAt '=' pathSpec0 with
          | none => none
          | some (p, v) => some (p, v)
        else some (pathSpec0, [])
      match pv with
      | none => ([], st)
      | some (pathSpec, value) =>
        match breakAt '.' pathSpec with
        | none => ([], st)
        | some (objectId, memberPath) =>
          match lookupM st.aObjs objectId with
          | none => ([], st)
          | some obj =>
            match breakAt '.' memberPath with
            | some (baseMember, subPath) =>
              if baseMember = "a".toList ∨ baseMember = "d".toList then
                if baseMember = "d".toList then
                  go fuel st (operation ++ ' ' :: objectId ++ '.' :: subPath ++
                    (if operation = "set".toList then '=' :: value else []))
                else ([], st)
              else ([], st)
            | none =>
              if memberPath = "a".toList then
                if operation = "set".toList then
                  match parseIntLC value with
                  | some n =>
                    (value,
                      { st with aObjs := updateM st.aObjs objectId (fun o => { o with a := n }) })
                  | none => ([], st)
                else if operation = "get".toList then (intToStr obj.a, st)
                else ([], st)
              else if memberPath = "d".toList then
                if operation = "set".toList then
                  match recordFromStr value with
                  | some r =>
                    (value,
                      { st with aObjs := updateM st.aObjs objectId (fun o => { o with d := r }) })
                  | none => ([], st)
                else if operation = "get".toList then (recordToStr obj.d, st)
                else ([], st)
              else ([], st)

/-- `ReflectionParser::parseAndExecute`: the recursion consumes at least
two characters of the synthesized command per step, so `cmd.length + 1`
fuel always suffices (proved below). -/
def parseAndExecute (st : DispState) (cmd : Str) : Str × DispState :=
  go (cmd.length + 1) st cmd

/-! ### The dispatcher as actually compiled -/

/-- `Reflector<A>::reflect` as compiled.  `_reflect_members`
(demo.cpp:177-180) computes `constexpr size_t count = REFLECT_COUNTER;`
and `__COUNTER__` is a preprocessor token expanded exactly once, at its
single occurrence inside the class template — before any
`REFLECT_MEMBER` expansion (Record's members are counted at
demo.cpp:199-200, A's at 225-226, all later).  So `count = 0` for every
derived type, `_get_reflection_data` returns the empty tuple, and the
reflected member map of every type is empty.  The value type of the map
is irrelevant because no entry exists. -/
def reflectA (_obj : AObj) : List (Str × Unit) := []

/-- `Reflector<Record>::reflect` as compiled: the empty accessor map,
for the same reason as `reflectA`. -/
def reflectRecord (_r : RecordObj) : List (Str × Unit) := []

/-- `ReflectionParser::parseAndExecute` as compiled: parsing and the
`ObjectRegistry<A>` lookup are as in `go`, but both `members.find`
calls (demo.cpp:334 and 345) search the empty reflected member map, so
in the nested branch `it != members.end()` is always false (making the
recursion at demo.cpp:337 unreachable) and the leaf branch always
reports member-not-found: once the object is resolved, every command
ends in `return ""` with no call to `setValue` or `getValue`. -/
def parseAndExecuteCompiled (st : DispState) (cmd : Str) : Str × DispState :=
  match tokenize cmd with
  | [] => ([], st)
  | [_] => ([], st)
  | operation :: pathSpec0 :: _ =>
    let pv : Option (Str × Str) :=
      if operation = "set".toList then
        match breakAt '=' pathSpec0 with
        | none => none
        | some (p, v) => some (p, v)
      else some (pathSpec0, [])
    match pv with
    | none => ([], st)
    | some (pathSpec, _) =>
      match breakAt '.' pathSpec with
      | none => ([], st)
      | some (objectId, _) =>
        match lookupM st.aObjs objectId with
        | none => ([], st)
        | some _ => ([], st)

/-! ### Lifecycle model: `Reflectable` and `ObjectRegistry` -/

/-- A per-type `ObjectRegistry`: identifier to live instance, instances
being abstract handles. -/
abbrev Registry := Str → Option Nat

/-- `ObjectRegistry::registerObject`: insert or silently overwrite. -/
def regInsert (reg : Registry) (i : Str) (h : Nat) : Registry :=
  fun x => if x = i then some h else reg x

/-- `ObjectRegistry::unregisterObject`: erase by key, no-op if absent. -/
def regErase (reg : Registry) (i : Str) : Registry :=
  fun x => if x = i then none else reg x

/-- The live instances of one reflectable type (each handle with its
current `_object_id`) together with the type's registry. -/
structure LifeState where
  live : List (Nat × Str)
  reg : Registry

def initLife : LifeState := ⟨[], fun _ => none⟩

/-- The `Reflectable` constructor via `_register_self`: an empty id
throws `invalid_argument` (the `some` message) before any state is
touched; otherwise the instance stores the id and registers itself. -/
def constructR (st : LifeState) (h : Nat) (i : Str) : Option Str × LifeState :=
  if i = [] then (some "Object ID cannot be empty".toList, st)
  else (none, ⟨(h, i) :: st.live, regInsert st.reg i h⟩)

/-- `Reflectable::registerAs`: an empty id throws before anything is
unregistered; otherwise the old id is unregistered (when non-empty) and
`_register_self` stores and registers the new id. -/
def registerAsR (st : LifeState) (h : Nat) (i : Str) : Option Str × LifeState :=
  if i = [] then (some "Object ID cannot be empty".toList, st)
  else
    match st.live.find? (fun p => p.1 == h) with
    | none => (none, st)
    | some q =>
      (none,
        ⟨st.live.map (fun p => if p.1 = h then (h, i) else p),
         regInsert (if q.2 ≠ [] then regErase st.reg q.2 else st.reg) i h⟩)

/-- `Reflectable::~Reflectable`: unregister the held id when non-empty
and drop the instance. -/
def destructR (st : LifeState) (h : Nat) : LifeState :=
  match st.live.find? (fun p => p.1 == h) with
  | none => st
  | some q =>
    ⟨st.live.filter (fun p => p.1 != h),
     if q.2 ≠ [] then regErase st.reg q.2 else st.reg⟩

/-- The lifecycle events named by the claim: construction, rename,
destruction. -/
inductive Event
  | construct (h : Nat) (i : Str)
  | rename (h : Nat) (i : Str)
  | destroy (h : Nat)

def stepE (st : LifeState) : Event → LifeState
  | .construct h i => (constructR st h i).2
  | .rename h i => (registerAsR st h i).2
  | .destroy h => destructR st h

def runE : LifeState → List Event → LifeState
  | st, [] => st
  | st, e :: es => runE (stepE st e) es

/-- Collision-free well-formed events: constructions use a fresh handle
and an identifier held by no live instance; renames target a live
instance and an identifier held by no other live instance. -/
def okEvent (st : LifeState) : Event → Bool
  | .construct h i =>
    (i != []) && st.live.all (fun p => p.1 != h) && st.live.all (fun p => p.2 != i)
  | .rename h i =>
    (i != []) && st.live.any (fun p => p.1 == h) &&
      st.live.all (fun p => p.1 == h || p.2 != i)
  | .destroy _ => true

def goodTrace : LifeState → List Event → Bool
  | _, [] => true
  | st, e :: es => okEvent st e && goodTrace (stepE st e) es

/-- The spec's registry invariant: every live instance holding a
non-empty identifier is the value of the registry entry at that
identifier (the registry is a map, so that entry is unique). -/
def RegInv (st : LifeState) : Prop :=
  ∀ p ∈ st.live, p.2 ≠ [] → st.reg p.2 = some p.1

/-- Inductive strengthening of `RegInv`: handles are unique, identifiers
are non-empty, and the registry is exactly the graph of the live list. -/
def FullInv (st : LifeState) : Prop :=
  st.live.Pairwise (fun p q => p.1 ≠ q.1) ∧
  (∀ p ∈ st.live, p.2 ≠ []) ∧
  (∀ (i : Str) (h : Nat), st.reg i = some h ↔ (h, i) ∈ st.live)

/-! ### Basic lemmas about the string-splitting helpers -/

theorem breakAt_some {c : Char} : ∀ {l a b : Str},
    breakAt c l = some (a, b) → l = a ++ c :: b ∧ c ∉ a := by
  intro l
  induction l with
  | nil => intro a b h; simp [breakAt] at h
  | cons x xs ih =>
    intro a b h
    by_cases hx : x = c
    · rw [breakAt, if_pos hx] at h
      obtain ⟨rfl, rfl⟩ : [] = a ∧ xs = b := by
        have := Option.some.inj h
        exact ⟨congrArg Prod.fst this, congrArg Prod.snd this⟩
      simpa using hx
    · rw [breakAt, if_neg hx] at h
      cases hbr : breakAt c xs with
      | none => rw [hbr] at h; simp at h
      | some p =>
        rw [hbr] at h
        simp only [Option.map_some'] at h
        have h1 := Option.some.inj h
        have ha : x :: p.1 = a := congrArg Prod.fst h1
        have hb : p.2 = b := congrArg Prod.snd h1
        obtain ⟨hxs, hnc⟩ := ih (show breakAt c xs = some (p.1, p.2) from hbr)
        subst ha hb
        constructor
        · rw [hxs]; rfl
        · intro hmem
          rcases List.mem_cons.mp hmem with h2 | h2
          · exact hx h2.symm
          · exact hnc h2

theorem breakAt_append {c : Char} : ∀ {a : Str} (b : Str),
    c ∉ a → breakAt c (a ++ c :: b) = some (a, b) := by
  intro a
  induction a with
  | nil => intro b _; simp [breakAt]
  | cons x xs ih =>
    intro b h
    have hx : x ≠ c := fun hxc => h (by simp [hxc])
    have hxs : c ∉ xs := fun hm => h (by simp [hm])
    simp [breakAt, hx, ih b hxs]

theorem splitAll_ne_nil : ∀ l : Str, splitAll l ≠ [] := by
  intro l
  induction l with
  | nil => simp [splitAll]
  | cons x xs ih =>
    by_cases hx : x = ' '
    · simp [splitAll, hx]
    · cases h : splitAll xs with
      | nil => exact absurd h ih
      | cons t ts => simp [splitAll, hx, h]

theorem splitAll_sum : ∀ l : Str,
    ((splitAll l).map List.length).sum + (splitAll l).length = l.length + 1 := by
  intro l
  induction l with
  | nil => simp [splitAll]
  | cons x xs ih =>
    by_cases hx : x = ' '
    · simp only [splitAll, if_pos hx, List.map_cons, List.sum_cons, List.length_cons,
        List.length]
      omega
    · cases h : splitAll xs with
      | nil => exact absurd h (splitAll_ne_nil xs)
      | cons t ts =>
        rw [h] at ih
        simp only [List.map_cons, List.sum_cons, List.length_cons] at ih
        simp only [splitAll, if_neg hx, h, List.map_cons, List.sum_cons,
          List.length_cons, List.length]
        omega

theorem tokenize_two_le {l t₀ t₁ : Str} {ts : List Str}
    (h : tokenize l = t₀ :: t₁ :: ts) : t₀.length + 1 + t₁.length ≤ l.length := by
  have hsub : List.Sublist ((tokenize l).map List.length) ((splitAll l).map List.length) :=
    (List.filter_sublist _).map _
  have hsum : ((tokenize l).map List.length).sum ≤ ((splitAll l).map List.length).sum :=
    hsub.sum_le_sum (by intro a _; exact Nat.zero_le a)
  have hlen : ((tokenize l).map List.length).length ≤ ((splitAll l).map List.length).length :=
    hsub.length_le
  have htot := splitAll_sum l
  rw [h] at hsum hlen
  simp only [List.map_cons, List.sum_cons, List.length_cons, List.length_map] at hsum hlen
  omega

theorem splitAll_no_space : ∀ {l t : Str}, t ∈ splitAll l → ' ' ∉ t := by
  intro l
  induction l with
  | nil => intro t ht; simp [splitAll] at ht; simp [ht]
  | cons x xs ih =>
    intro t ht
    by_cases hx : x = ' '
    · simp [splitAll, hx] at ht
      rcases ht with rfl | ht
      · simp
      · exact ih ht
    · cases h : splitAll xs with
      | nil => exact absurd h (splitAll_ne_nil xs)
      | cons u us =>
        simp [splitAll, hx, h] at ht
        rcases ht with rfl | ht
        · have hu : u ∈ splitAll xs := by rw [h]; exact List.mem_cons_self u us
          have hns := ih hu
          intro hmem
          rcases List.mem_cons.mp hmem with h2 | h2
          · exact hx h2.symm
          · exact hns h2
        · exact ih (by rw [h]; exact List.mem_cons_of_mem u ht)

theorem tokenize_no_space {l t : Str} (h : t ∈ tokenize l) : ' ' ∉ t :=
  splitAll_no_space (List.mem_of_mem_filter h)

theorem tokenize_mem_ne_nil {l t : Str} (h : t ∈ tokenize l) : t ≠ [] := by
  have := List.of_mem_filter h
  simpa using this

theorem splitAll_append_space : ∀ {w : Str} (r : Str),
    ' ' ∉ w → splitAll (w ++ ' ' :: r) = w :: splitAll r := by
  intro w
  induction w with
  | nil => intro r _; simp [splitAll]
  | cons x xs ih =>
    intro r h
    have hx : x ≠ ' ' := fun hxs => h (by simp [hxs])
    have hxs : ' ' ∉ xs := fun hm => h (by simp [hm])
    have h2 := ih r hxs
    simp only [List.cons_append, splitAll, if_neg hx]
    rw [show xs ++ ' ' :: r = xs.append (' ' :: r) from rfl] at h2
    rw [h2]

theorem tokenize_append_space {w : Str} (r : Str) (h : ' ' ∉ w) (hne : w ≠ []) :
    tokenize (w ++ ' ' :: r) = w :: tokenize r := by
  simp only [tokenize, splitAll_append_space r h, List.filter_cons]
  simp [hne]

theorem splitAll_no_space_eq : ∀ {w : Str}, ' ' ∉ w → splitAll w = [w] := by
  intro w
  induction w with
  | nil => intro _; simp [splitAll]
  | cons x xs ih =>
    intro h
    have hx : x ≠ ' ' := fun hxs => h (by simp [hxs])
    have hxs : ' ' ∉ xs := fun hm => h (by simp [hm])
    simp only [splitAll, if_neg hx, ih hxs]

theorem tokenize_single {w : Str} (h : ' ' ∉ w) (hne : w ≠ []) : tokenize w = [w] := by
  simp only [tokenize, splitAll_no_space_eq h, List.filter_cons]
  simp [hne]

theorem cmd_decrease {cmd op t1 p v oid mp bm sub : Str} {ts : List Str}
    (htok : tokenize cmd = op :: t1 :: ts)
    (hpv : (op = "set".toList ∧ breakAt '=' t1 = some (p, v)) ∨
      (op ≠ "set".toList ∧ p = t1 ∧ v = []))
    (hdot : breakAt '.' p = some (oid, mp))
    (hdot2 : breakAt '.' mp = some (bm, sub)) :
    (op ++ ' ' :: oid ++ '.' :: sub ++
      (if op = "set".toList then '=' :: v else [])).length < cmd.length := by
  have hbound := tokenize_two_le htok
  have h1 := (breakAt_some hdot).1
  have h2 := (breakAt_some hdot2).1
  rcases hpv with ⟨hset, hbe⟩ | ⟨hset, rfl, rfl⟩
  · have h0 := (breakAt_some hbe).1
    rw [if_pos hset]
    rw [h0, h1, h2] at hbound
    simp only [List.length_append, List.length_cons] at hbound ⊢
    omega
  · rw [if_neg hset]
    rw [h1, h2] at hbound
    simp only [List.length_append, List.length_cons, List.length_nil] at hbound ⊢
    omega

theorem go_congr : ∀ (n : Nat) {cmd : Str} (st : DispState) {f₁ f₂ : Nat},
    cmd.length ≤ n → n < f₁ → n < f₂ → go f₁ st cmd = go f₂ st cmd := by
  intro n
  induction n with
  | zero =>
    intro cmd st f₁ f₂ hlen h₁ h₂
    have hc : cmd = [] := List.length_eq_zero.mp (Nat.le_zero.mp hlen)
    subst hc
    obtain ⟨a, rfl⟩ : ∃ a, f₁ = a + 1 := ⟨f₁ - 1, by omega⟩
    obtain ⟨b, rfl⟩ : ∃ b, f₂ = b + 1 := ⟨f₂ - 1, by omega⟩
    simp [go, tokenize, splitAll]
  | succ n ih =>
    intro cmd st f₁ f₂ hlen h₁ h₂
    obtain ⟨a, rfl⟩ : ∃ a, f₁ = a + 1 := ⟨f₁ - 1, by omega⟩
    obtain ⟨b, rfl⟩ : ∃ b, f₂ = b + 1 := ⟨f₂ - 1, by omega⟩
    rcases htok : tokenize cmd with _ | ⟨op, _ | ⟨t1, ts⟩⟩
    · simp [go, htok]
    · simp [go, htok]
    · by_cases hset : op = "set".toList
      · rcases hbe : breakAt '=' t1 with _ | ⟨p, v⟩
        · simp [go, htok, hset, hbe]
        · rcases hdot : breakAt '.' p with _ | ⟨oid, mp⟩
          · simp [go, htok, hset, hbe, hdot]
          · rcases hobj : lookupM st.aObjs oid with _ | obj
            · simp [go, htok, hset, hbe, hdot, hobj]
            · rcases hdot2 : breakAt '.' mp with _ | ⟨bm, sub⟩
              · simp [go, htok, hset, hbe, hdot, hobj, hdot2]
              · by_cases hbd : bm = "d".toList
                · simp only [go, htok]
                  simp [hset, hbe, hdot, hobj, hdot2, hbd]
                  have hdec := cmd_decrease htok (Or.inl ⟨hset, hbe⟩) hdot hdot2
                  rw [if_pos hset, hset] at hdec
                  refine ih st ?_ ?_ ?_
                  · simp [List.length_append, List.length_cons] at hdec ⊢
                    omega
                  · omega
                  · omega
                · have hbd2 : ¬bm = ['d'] := by simpa using hbd
                  simp [go, htok, hset, hbe, hdot, hobj, hdot2, hbd2]
      · have hset2 : ¬op = ['s', 'e', 't'] := by simpa using hset
        rcases hdot : breakAt '.' t1 with _ | ⟨oid, mp⟩
        · simp [go, htok, hset2, hdot]
        · rcases hobj : lookupM st.aObjs oid with _ | obj
          · simp [go, htok, hset2, hdot, hobj]
          · rcases hdot2 : breakAt '.' mp with _ | ⟨bm, sub⟩
            · simp [go, htok, hset2, hdot, hobj, hdot2]
            · by_cases hbd : bm = "d".toList
              · simp only [go, htok]
                simp [hset2, hdot, hobj, hdot2, hbd]
                have hdec := cmd_decrease htok (Or.inr ⟨hset, rfl, rfl⟩) hdot hdot2
                rw [if_neg hset] at hdec
                refine ih st ?_ ?_ ?_
                · simp [List.length_append, List.length_cons] at hdec ⊢
                  omega
                · omega
                · omega
              · have hbd2 : ¬bm = ['d'] := by simpa using hbd
                simp [go, htok, hset2, hdot, hobj, hdot2, hbd2]


theorem tokenize_sub_no_space {cmd op t1 p v oid mp bm sub : Str} {ts : List Str}
    (htok : tokenize cmd = op :: t1 :: ts)
    (hpv : (op = "set".toList ∧ breakAt '=' t1 = some (p, v)) ∨
      (op ≠ "set".toList ∧ p = t1 ∧ v = []))
    (hdot : breakAt '.' p = some (oid, mp))
    (hdot2 : breakAt '.' mp = some (bm, sub)) :
    ' ' ∉ oid ∧ ' ' ∉ sub := by
  have ht1 : ' ' ∉ t1 :=
    tokenize_no_space (by rw [htok]; exact List.mem_cons_of_mem _ (List.mem_cons_self _ _))
  have hp : ' ' ∉ p := by
    rcases hpv with ⟨_, hbe⟩ | ⟨_, rfl, rfl⟩
    · have := (breakAt_some hbe).1
      intro hm; exact ht1 (by rw [this]; simp [hm])
    · exact ht1
  have h1 := (breakAt_some hdot).1
  have h2 := (breakAt_some hdot2).1
  constructor
  · intro hm; exact hp (by rw [h1]; simp [hm])
  · intro hm; exact hp (by rw [h1, h2]; simp [hm])

theorem go_get_snd : ∀ (fuel : Nat) (st : DispState) (cmd : Str) (rest : List Str),
    tokenize cmd = "get".toList :: rest → (go fuel st cmd).2 = st := by
  intro fuel
  induction fuel with
  | zero => intro st cmd rest _; rfl
  | succ f ih =>
    intro st cmd rest htok
    have hset2 : ¬("get".toList : Str) = ['s', 'e', 't'] := by decide
    rcases rest with _ | ⟨t1, ts⟩
    · simp [go, htok]
    · rcases hdot : breakAt '.' t1 with _ | ⟨oid, mp⟩
      · simp [go, htok, hset2, hdot]
      · rcases hobj : lookupM st.aObjs oid with _ | obj
        · simp [go, htok, hset2, hdot, hobj]
        · rcases hdot2 : breakAt '.' mp with _ | ⟨bm, sub⟩
          · simp [go, htok, hset2, hdot, hobj, hdot2]
            split
            · rfl
            · split
              · rfl
              · rfl
          · by_cases hbd : bm = "d".toList
            · simp only [go, htok]
              simp [hset2, hdot, hobj, hdot2, hbd]
              have hrec : tokenize ("get".toList ++ ' ' :: (oid ++ '.' :: (sub ++ []))) =
                  "get".toList :: tokenize (oid ++ '.' :: (sub ++ [])) :=
                tokenize_append_space _ (by decide) (by decide)
              rw [List.append_nil] at hrec
              exact ih st _ _ hrec
            · have hbd2 : ¬bm = ['d'] := by simpa using hbd
              simp [go, htok, hset2, hdot, hobj, hdot2, hbd2]



theorem go_unknown_op : ∀ (fuel : Nat) (st : DispState) (cmd op t1 : Str) (ts : List Str),
    tokenize cmd = op :: t1 :: ts → op ≠ "get".toList → op ≠ "set".toList →
    go fuel st cmd = ([], st) := by
  intro fuel
  induction fuel with
  | zero => intro st cmd op t1 ts _ _ _; rfl
  | succ f ih =>
    intro st cmd op t1 ts htok hget hset
    have hset2 : ¬op = ['s', 'e', 't'] := by simpa using hset
    have hget2 : ¬op = ['g', 'e', 't'] := by simpa using hget
    rcases hdot : breakAt '.' t1 with _ | ⟨oid, mp⟩
    · simp [go, htok, hset2, hdot]
    · rcases hobj : lookupM st.aObjs oid with _ | obj
      · simp [go, htok, hset2, hdot, hobj]
      · rcases hdot2 : breakAt '.' mp with _ | ⟨bm, sub⟩
        · simp [go, htok, hset2, hget2, hdot, hobj, hdot2]
        · by_cases hbd : bm = "d".toList
          · simp only [go, htok]
            simp [hset2, hdot, hobj, hdot2, hbd]
            have hop : ' ' ∉ op ∧ op ≠ [] :=
              ⟨tokenize_no_space (by rw [htok]; exact List.mem_cons_self _ _),
               tokenize_mem_ne_nil (by rw [htok]; exact List.mem_cons_self _ _)⟩
            obtain ⟨hoid, hsub⟩ := tokenize_sub_no_space htok
              (Or.inr ⟨hset, rfl, rfl⟩) hdot hdot2
            have hX : ' ' ∉ (oid ++ '.' :: sub) := by
              intro hm
              rcases List.mem_append.mp hm with hm | hm
              · exact hoid hm
              · rcases List.mem_cons.mp hm with hm | hm
                · exact absurd hm.symm (by decide)
                · exact hsub hm
            have hrec : tokenize (op ++ ' ' :: (oid ++ '.' :: sub)) =
                op :: tokenize (oid ++ '.' :: sub) :=
              tokenize_append_space _ hop.1 hop.2
            rw [tokenize_single hX (by simp)] at hrec
            exact ih st _ op _ [] hrec hget hset
          · have hbd2 : ¬bm = ['d'] := by simpa using hbd
            simp [go, htok, hset2, hdot, hobj, hdot2, hbd2]

/-- Claim C8: `parseAndExecute` is total over arbitrary command strings:
the self-recursion terminates within `cmd.length` steps, so any fuel
beyond the command's length computes the same result as
`parseAndExecute`, and every failure is the empty-string result. -/
theorem c8_parse_total_fuel_independent (st : DispState) (cmd : Str) (fuel : Nat)
    (hfuel : cmd.length < fuel) : go fuel st cmd = parseAndExecute st cmd :=
  go_congr cmd.length st (Nat.le_refl _) hfuel (Nat.lt_succ_self _)

theorem c8_witness :
    ("set test_object.d.a=666".toList.length < 100 ∧
      go 100 ⟨[("test_object".toList, ⟨1, ⟨2, "hello".toList⟩, "nonreflectable".toList⟩)], []⟩
        "set test_object.d.a=666".toList =
      parseAndExecute ⟨[("test_object".toList, ⟨1, ⟨2, "hello".toList⟩, "nonreflectable".toList⟩)], []⟩
        "set test_object.d.a=666".toList) :=
  ⟨by decide, c8_parse_total_fuel_independent _ _ 100 (by decide)⟩

/-- Claim C9: any command whose first token is `get` leaves the whole
dispatcher state (all registered objects and registries) unchanged. -/
theorem c9_get_commands_read_only (st : DispState) (cmd : Str) (rest : List Str)
    (htok : tokenize cmd = "get".toList :: rest) : (parseAndExecute st cmd).2 = st :=
  go_get_snd _ st cmd rest htok

theorem c9_witness :
    tokenize "get test_object.d.a".toList = ["get".toList, "test_object.d.a".toList] ∧
    (parseAndExecute ⟨[("test_object".toList, ⟨1, ⟨2, "hello".toList⟩, "n".toList⟩)], []⟩
      "get test_object.d.a".toList).2 =
      ⟨[("test_object".toList, ⟨1, ⟨2, "hello".toList⟩, "n".toList⟩)], []⟩ :=
  ⟨by decide, c9_get_commands_read_only _ _ ["test_object.d.a".toList] (by decide)⟩



/-- Claim C1 (code bug): with root object `x` whose nested field `d`
holds `a = 2`, `b = "hello"`, the compiled program answers `get x.d.b`
with the empty string although the nested field's stored text is
`"hello"`: the reflected member map is empty (see `reflectA`), so `d`
is not navigable and the nested field's own reflected map has no `b`
entry to read — and even under the declared member map the rewrite at
demo.cpp:337 would resolve the remainder against the root object.  The
program's own asserts at demo.cpp:377-378 fail. -/
theorem c1_nested_get_member_not_found :
    (parseAndExecuteCompiled
        ⟨[("x".toList, ⟨1, ⟨2, "hello".toList⟩, "n".toList⟩)], []⟩
        "get x.d.b".toList).1 = [] ∧
    lookupM (reflectRecord ⟨2, "hello".toList⟩) "b".toList = none ∧
    (⟨2, "hello".toList⟩ : RecordObj).b = "hello".toList ∧
    "hello".toList ≠ ([] : Str) := by
  exact ⟨by decide, rfl, rfl, by decide⟩

/-- Claim C2 (code bug): against the literal scenario of the demo
(`A` registered as `"test_object"`, nested `d` with integer `a`, text
`b`), the command `set test_object.d.b=hello_world` returns the empty
string and stores nothing, because the rewritten command
`set test_object.b=hello_world` finds no member `b` on the root. -/
theorem c2_set_nested_text_field_returns_empty :
    parseAndExecute
      ⟨[("test_object".toList, ⟨1, ⟨2, "hello".toList⟩, "nonreflectable".toList⟩)], []⟩
      "set test_object.d.b=hello_world".toList =
    ([], ⟨[("test_object".toList, ⟨1, ⟨2, "hello".toList⟩, "nonreflectable".toList⟩)], []⟩) := by
  decide



/-- Claim C7: malformed commands — fewer than two whitespace tokens, a
path without a '.' separator, a `set` whose second token has no '=', or
an unrecognized operation keyword — all return the empty string and
leave every registered object and registry entry unchanged. -/
theorem c7_malformed_commands_no_effect :
    (∀ (st : DispState) (cmd : Str), (tokenize cmd).length < 2 →
      parseAndExecute st cmd = ([], st)) ∧
    (∀ (st : DispState) (cmd op t1 pathSpec value : Str) (ts : List Str),
      tokenize cmd = op :: t1 :: ts →
      ((op = "set".toList ∧ breakAt '=' t1 = some (pathSpec, value)) ∨
        (op ≠ "set".toList ∧ pathSpec = t1)) →
      breakAt '.' pathSpec = none →
      parseAndExecute st cmd = ([], st)) ∧
    (∀ (st : DispState) (cmd t1 : Str) (ts : List Str),
      tokenize cmd = "set".toList :: t1 :: ts → breakAt '=' t1 = none →
      parseAndExecute st cmd = ([], st)) ∧
    (∀ (st : DispState) (cmd op t1 : Str) (ts : List Str),
      tokenize cmd = op :: t1 :: ts → op ≠ "get".toList → op ≠ "set".toList →
      parseAndExecute st cmd = ([], st)) := by
  refine ⟨?_, ?_, ?_, ?_⟩
  · intro st cmd hlen
    rcases htok : tokenize cmd with _ | ⟨op, _ | ⟨t1, ts⟩⟩
    · simp [parseAndExecute, go, htok]
    · simp [parseAndExecute, go, htok]
    · rw [htok] at hlen; simp at hlen; omega
  · intro st cmd op t1 pathSpec value ts htok hpv hdot
    rcases hpv with ⟨hset, hbe⟩ | ⟨hset, rfl⟩
    · subst hset
      simp [parseAndExecute, go, htok, hbe, hdot]
    · have hset2 : ¬op = ['s', 'e', 't'] := by simpa using hset
      simp [parseAndExecute, go, htok, hset2, hdot]
  · intro st cmd t1 ts htok hbe
    simp [parseAndExecute, go, htok, hbe]
  · intro st cmd op t1 ts htok hget hset
    exact go_unknown_op _ st cmd op t1 ts htok hget hset

theorem c7_witness :
    ((tokenize "get".toList).length < 2 ∧
      parseAndExecute ⟨[("x".toList, ⟨1, ⟨2, []⟩, []⟩)], []⟩ "get".toList =
        ([], ⟨[("x".toList, ⟨1, ⟨2, []⟩, []⟩)], []⟩)) ∧
    (tokenize "get nodot".toList = ["get".toList, "nodot".toList] ∧
      parseAndExecute ⟨[("x".toList, ⟨1, ⟨2, []⟩, []⟩)], []⟩ "get nodot".toList =
        ([], ⟨[("x".toList, ⟨1, ⟨2, []⟩, []⟩)], []⟩)) ∧
    (tokenize "set x.a".toList = ["set".toList, "x.a".toList] ∧
      parseAndExecute ⟨[("x".toList, ⟨1, ⟨2, []⟩, []⟩)], []⟩ "set x.a".toList =
        ([], ⟨[("x".toList, ⟨1, ⟨2, []⟩, []⟩)], []⟩)) ∧
    (tokenize "invalid x.a".toList = ["invalid".toList, "x.a".toList] ∧
      parseAndExecute ⟨[("x".toList, ⟨1, ⟨2, []⟩, []⟩)], []⟩ "invalid x.a".toList =
        ([], ⟨[("x".toList, ⟨1, ⟨2, []⟩, []⟩)], []⟩)) :=
  ⟨⟨by decide, c7_malformed_commands_no_effect.1 _ _ (by decide)⟩,
   ⟨by decide, c7_malformed_commands_no_effect.2.1 _ _ "get".toList "nodot".toList
      "nodot".toList [] [] (by decide) (Or.inr ⟨by decide, rfl⟩) (by decide)⟩,
   ⟨by decide, c7_malformed_commands_no_effect.2.2.1 _ _ "x.a".toList [] (by decide) (by decide)⟩,
   ⟨by decide, c7_malformed_commands_no_effect.2.2.2 _ _ "invalid".toList "x.a".toList []
      (by decide) (by decide) (by decide)⟩⟩



/-- Claim C10: the dispatcher resolves the root identifier only against
`ObjectRegistry<A>`: when the parsed root identifier has no entry in the
A registry, the command returns the empty string and changes nothing,
even while the same identifier is registered in the Record registry. -/
theorem c10_lookup_only_a_registry :
    (∀ (st : DispState) (cmd t1 oid mp pathSpec value : Str) (ts : List Str) (r : RecordObj),
      tokenize cmd = "set".toList :: t1 :: ts →
      breakAt '=' t1 = some (pathSpec, value) →
      breakAt '.' pathSpec = some (oid, mp) →
      lookupM st.recObjs oid = some r →
      lookupM st.aObjs oid = none →
      parseAndExecute st cmd = ([], st)) ∧
    (∀ (st : DispState) (cmd op t1 oid mp : Str) (ts : List Str) (r : RecordObj),
      tokenize cmd = op :: t1 :: ts → op ≠ "set".toList →
      breakAt '.' t1 = some (oid, mp) →
      lookupM st.recObjs oid = some r →
      lookupM st.aObjs oid = none →
      parseAndExecute st cmd = ([], st)) := by
  constructor
  · intro st cmd t1 oid mp pathSpec value ts r htok hbe hdot hrec hnone
    simp [parseAndExecute, go, htok, hbe, hdot, hnone]
  · intro st cmd op t1 oid mp ts r htok hset hdot hrec hnone
    have hset2 : ¬op = ['s', 'e', 't'] := by simpa using hset
    simp [parseAndExecute, go, htok, hset2, hdot, hnone]

theorem c10_witness :
    tokenize "get record_1.a".toList = ["get".toList, "record_1.a".toList] ∧
    breakAt '.' "record_1.a".toList = some ("record_1".toList, "a".toList) ∧
    lookupM (⟨[], [("record_1".toList, ⟨2, "hello".toList⟩)]⟩ : DispState).recObjs
      "record_1".toList = some ⟨2, "hello".toList⟩ ∧
    lookupM (⟨[], [("record_1".toList, ⟨2, "hello".toList⟩)]⟩ : DispState).aObjs
      "record_1".toList = none ∧
    parseAndExecute ⟨[], [("record_1".toList, ⟨2, "hello".toList⟩)]⟩ "get record_1.a".toList =
      ([], ⟨[], [("record_1".toList, ⟨2, "hello".toList⟩)]⟩) :=
  ⟨by decide, by decide, by decide, by decide,
    c10_lookup_only_a_registry.2 _ _ "get".toList "record_1.a".toList "record_1".toList
      "a".toList [] ⟨2, "hello".toList⟩ (by decide) (by decide) (by decide) (by decide)
      (by decide)⟩



/-- Claim C3 (code bug): `MemberInfo::setValue` itself does leave the
field unchanged and return false on a conversion failure (first
conjunct), and `set x.a=abc` returns the empty string with the state
unchanged — but the claim's final part fails on the compiled program:
a subsequent `get x.a` returns the empty string (member `a` is absent
from the empty reflected member map), not the pre-attempt value text
`"1"`.  The program's own assert at demo.cpp:370 fails the same way. -/
theorem c3_get_after_failed_set_returns_empty :
    memberSetValue parseIntLC "abc".toList (1 : Int) = (false, 1) ∧
    parseAndExecuteCompiled ⟨[("x".toList, ⟨1, ⟨2, "h".toList⟩, "n".toList⟩)], []⟩
      "set x.a=abc".toList =
      ([], ⟨[("x".toList, ⟨1, ⟨2, "h".toList⟩, "n".toList⟩)], []⟩) ∧
    (parseAndExecuteCompiled ⟨[("x".toList, ⟨1, ⟨2, "h".toList⟩, "n".toList⟩)], []⟩
      "get x.a".toList).1 = [] ∧
    intToStr 1 ≠ ([] : Str) := by
  exact ⟨by decide, by decide, by decide, by decide⟩

/-- Claim C4 (code bug): the round-trip fails at the demo's own first
test input: in the compiled program `set test_object.a=42` returns the
empty string (member `a` is absent from the empty reflected member
map, so `setValue` is never reached and nothing is stored), not
`"42"`, and the subsequent `get test_object.a` returns the empty
string as well.  The asserts at demo.cpp:369-370 fail. -/
theorem c4_set_returns_empty_not_input :
    parseAndExecuteCompiled
      ⟨[("test_object".toList, ⟨1, ⟨2, "hello".toList⟩, "nonreflectable".toList⟩)], []⟩
      "set test_object.a=42".toList =
      ([], ⟨[("test_object".toList,
        ⟨1, ⟨2, "hello".toList⟩, "nonreflectable".toList⟩)], []⟩) ∧
    (parseAndExecuteCompiled
      ⟨[("test_object".toList, ⟨1, ⟨2, "hello".toList⟩, "nonreflectable".toList⟩)], []⟩
      "get test_object.a".toList).1 = [] ∧
    "42".toList ≠ ([] : Str) := by
  exact ⟨by decide, by decide, by decide⟩

theorem fst_unique {l : List (Nat × Str)} (hp : l.Pairwise (fun p q => p.1 ≠ q.1))
    {h : Nat} {x y : Str} (hx : (h, x) ∈ l) (hy : (h, y) ∈ l) : x = y := by
  induction l with
  | nil => cases hx
  | cons p ps ih =>
    obtain ⟨hhead, htail⟩ := List.pairwise_cons.mp hp
    rcases List.mem_cons.mp hx with hx2 | hx2 <;> rcases List.mem_cons.mp hy with hy2 | hy2
    · exact congrArg Prod.snd (hx2.trans hy2.symm)
    · exfalso
      rw [← hx2] at hhead
      exact hhead (h, y) hy2 rfl
    · exfalso
      rw [← hy2] at hhead
      exact hhead (h, x) hx2 rfl
    · exact ih htail hx2 hy2



theorem fullInv_construct {st : LifeState} {h : Nat} {i : Str} (hI : FullInv st)
    (hok : okEvent st (Event.construct h i) = true) :
    FullInv (stepE st (Event.construct h i)) := by
  obtain ⟨hpw, hne, hiff⟩ := hI
  simp only [okEvent, Bool.and_eq_true, List.all_eq_true, bne_iff_ne, ne_eq] at hok
  obtain ⟨⟨hine, hfresh⟩, hidfresh⟩ := hok
  simp only [stepE, constructR, if_neg hine]
  refine ⟨?_, ?_, ?_⟩
  · exact List.pairwise_cons.mpr ⟨fun q hq => fun heq => hfresh q hq heq.symm, hpw⟩
  · intro p hp
    rcases List.mem_cons.mp hp with rfl | hp2
    · exact hine
    · exact hne p hp2
  · intro i' h'
    by_cases hx : i' = i
    · subst hx
      simp only [regInsert, if_pos rfl]
      constructor
      · intro he
        have : h = h' := Option.some.inj he
        subst this
        exact List.mem_cons_self _ _
      · intro hm
        rcases List.mem_cons.mp hm with he | hm2
        · have : h' = h := congrArg Prod.fst he
          rw [this]
          simp
        · exact absurd rfl (hidfresh (h', i') hm2)
    · simp only [regInsert, if_neg hx]
      rw [hiff i' h']
      constructor
      · intro hm
        exact List.mem_cons_of_mem _ hm
      · intro hm
        rcases List.mem_cons.mp hm with he | hm2
        · exact absurd (congrArg Prod.snd he) hx
        · exact hm2



theorem fullInv_rename {st : LifeState} {h : Nat} {i : Str} (hI : FullInv st)
    (hok : okEvent st (Event.rename h i) = true) :
    FullInv (stepE st (Event.rename h i)) := by
  obtain ⟨hpw, hne, hiff⟩ := hI
  simp only [okEvent, Bool.and_eq_true, List.all_eq_true, List.any_eq_true,
    bne_iff_ne, beq_iff_eq, Bool.or_eq_true, ne_eq] at hok
  obtain ⟨⟨hine, hex⟩, hothers⟩ := hok
  rcases hfind : st.live.find? (fun p => p.1 == h) with _ | q
  · exfalso
    obtain ⟨p, hp, hph⟩ := hex
    have hs : (st.live.find? (fun p => p.1 == h)).isSome = true :=
      List.find?_isSome.mpr ⟨p, hp, by simpa using hph⟩
    rw [hfind] at hs
    cases hs
  · have hq1 : q.1 = h := by have := List.find?_some hfind; simpa using this
    have hqmem : q ∈ st.live := List.mem_of_find?_eq_some hfind
    have hqne : q.2 ≠ [] := hne q hqmem
    have hq2mem : (h, q.2) ∈ st.live := by rw [← hq1]; exact hqmem
    simp only [stepE, registerAsR, if_neg hine, hfind, ne_eq, if_pos hqne]
    refine ⟨?_, ?_, ?_⟩
    · have hffst : ∀ p : Nat × Str, ((if p.1 = h then ((h, i) : Nat × Str) else p)).1 = p.1 := by
        intro p
        by_cases hp : p.1 = h
        · simp [hp]
        · simp [hp]
      exact List.Pairwise.map _ (fun a b hab => by rw [hffst a, hffst b]; exact hab) hpw
    · intro p' hp'
      obtain ⟨p, hp, rfl⟩ := List.mem_map.mp hp'
      by_cases hph : p.1 = h
      · simp only [if_pos hph]
        exact hine
      · simp only [if_neg hph]
        exact hne p hp
    · intro i' h'
      by_cases hx : i' = i
      · subst hx
        simp only [regInsert, if_pos rfl]
        constructor
        · intro he
          have hh : h = h' := Option.some.inj he
          subst hh
          refine List.mem_map.mpr ⟨q, hqmem, ?_⟩
          rw [if_pos hq1]
        · intro hm
          obtain ⟨p, hp, hfp⟩ := List.mem_map.mp hm
          by_cases hph : p.1 = h
          · rw [if_pos hph] at hfp
            have hh : h = h' := congrArg Prod.fst hfp
            rw [← hh]
            simp
          · rw [if_neg hph] at hfp
            rcases hothers p hp with hcase | hcase
            · exact absurd hcase hph
            · exact absurd (congrArg Prod.snd hfp) hcase
      · by_cases hy : i' = q.2
        · subst hy
          simp only [regInsert, if_neg hx, regErase, if_pos rfl]
          constructor
          · intro he
            cases he
          · intro hm
            exfalso
            obtain ⟨p, hp, hfp⟩ := List.mem_map.mp hm
            by_cases hph : p.1 = h
            · rw [if_pos hph] at hfp
              exact hx (congrArg Prod.snd hfp).symm
            · rw [if_neg hph] at hfp
              have hpl : (h', q.2) ∈ st.live := hfp ▸ hp
              have e1 : st.reg q.2 = some h' := (hiff q.2 h').mpr hpl
              have e2 : st.reg q.2 = some h := (hiff q.2 h).mpr hq2mem
              have hh : h' = h := by
                rw [e1] at e2
                exact Option.some.inj e2
              apply hph
              rw [congrArg Prod.fst hfp]
              exact hh
        · simp only [regInsert, if_neg hx, regErase, if_neg hy]
          rw [hiff i' h']
          constructor
          · intro hm
            have hph : h' ≠ h := by
              intro hh
              subst hh
              exact hy (fst_unique hpw hm hq2mem)
            refine List.mem_map.mpr ⟨(h', i'), hm, ?_⟩
            rw [if_neg hph]
          · intro hm
            obtain ⟨p, hp, hfp⟩ := List.mem_map.mp hm
            by_cases hph : p.1 = h
            · rw [if_pos hph] at hfp
              exact absurd (congrArg Prod.snd hfp).symm hx
            · rw [if_neg hph] at hfp
              exact hfp ▸ hp



theorem fullInv_destroy {st : LifeState} {h : Nat} (hI : FullInv st) :
    FullInv (stepE st (Event.destroy h)) := by
  obtain ⟨hpw, hne, hiff⟩ := hI
  rcases hfind : st.live.find? (fun p => p.1 == h) with _ | q
  · simpa only [stepE, destructR, hfind] using ⟨hpw, hne, hiff⟩
  · have hq1 : q.1 = h := by have := List.find?_some hfind; simpa using this
    have hqmem : q ∈ st.live := List.mem_of_find?_eq_some hfind
    have hqne : q.2 ≠ [] := hne q hqmem
    have hq2mem : (h, q.2) ∈ st.live := by rw [← hq1]; exact hqmem
    simp only [stepE, destructR, hfind, ne_eq, if_pos hqne]
    refine ⟨?_, ?_, ?_⟩
    · exact List.Pairwise.sublist (List.filter_sublist _) hpw
    · intro p hp
      exact hne p (List.mem_filter.mp hp).1
    · intro i' h'
      by_cases hy : i' = q.2
      · subst hy
        simp only [regErase, if_pos rfl]
        constructor
        · intro he
          cases he
        · intro hm
          exfalso
          obtain ⟨hmem, hbh⟩ := List.mem_filter.mp hm
          have e1 : st.reg q.2 = some h' := (hiff q.2 h').mpr hmem
          have e2 : st.reg q.2 = some h := (hiff q.2 h).mpr hq2mem
          have hh : h' = h := by
            rw [e1] at e2
            exact Option.some.inj e2
          simp [hh] at hbh
      · simp only [regErase, if_neg hy]
        rw [hiff i' h']
        constructor
        · intro hm
          refine List.mem_filter.mpr ⟨hm, ?_⟩
          have hph : h' ≠ h := by
            intro hh
            subst hh
            exact hy (fst_unique hpw hm hq2mem)
          simpa using hph
        · intro hm
          exact (List.mem_filter.mp hm).1

theorem fullInv_run : ∀ (evs : List Event) (st : LifeState),
    FullInv st → goodTrace st evs = true → FullInv (runE st evs) := by
  intro evs
  induction evs with
  | nil => intro st hI _; exact hI
  | cons e es ih =>
    intro st hI hg
    obtain ⟨hok, hg2⟩ := Bool.and_eq_true_iff.mp hg
    refine ih (stepE st e) ?_ hg2
    cases e with
    | construct h i => exact fullInv_construct hI hok
    | rename h i => exact fullInv_rename hI hok
    | destroy h => exact fullInv_destroy hI



/-- Claim C5 counterexample: constructing a second object under an
already-held identifier silently replaces the registry entry
(last-register-wins), so the still-alive first instance holds the
identifier "i" while NO registry entry maps "i" to it — the claimed
invariant fails for identifier-reusing sequences. -/
theorem c5_counterexample :
    ¬ RegInv (runE initLife [Event.construct 0 "i".toList, Event.construct 1 "i".toList]) := by
  intro hInv
  have hmem : ((0 : Nat), "i".toList) ∈
      (runE initLife [Event.construct 0 "i".toList, Event.construct 1 "i".toList]).live := by
    decide
  have := hInv (0, "i".toList) hmem (by decide)
  exact absurd this (by decide)

/-- Claim C5 (amended): the invariant — while alive with a non-empty
identifier, exactly one registry entry of the type maps that identifier
to the instance — holds across every sequence of constructions, renames
and destructions in which no construction or rename registers an
identifier currently held by another live instance; when such a
collision occurs the later registration silently wins and the earlier
instance loses its entry. -/
theorem c5_unique_registration_no_collisions (evs : List Event)
    (hg : goodTrace initLife evs = true) : RegInv (runE initLife evs) := by
  have hinit : FullInv initLife := by
    refine ⟨List.Pairwise.nil, ?_, ?_⟩
    · intro p hp
      cases hp
    · intro i h
      constructor
      · intro he
        cases he
      · intro hm
        cases hm
  obtain ⟨_, _, hiff⟩ := fullInv_run evs initLife hinit hg
  intro p hp _
  exact (hiff p.2 p.1).mpr hp

theorem c5_witness :
    goodTrace initLife
      [Event.construct 0 "x".toList, Event.construct 1 "y".toList,
        Event.rename 1 "z".toList, Event.destroy 0] = true ∧
    RegInv (runE initLife
      [Event.construct 0 "x".toList, Event.construct 1 "y".toList,
        Event.rename 1 "z".toList, Event.destroy 0]) :=
  ⟨by decide, c5_unique_registration_no_collisions _ (by decide)⟩

/-- Claim C6: constructing with an empty identifier throws
`invalid_argument` before touching any state (no registry entry, no
live instance), and `registerAs` with an empty identifier throws before
unregistering anything, keeping the previous identifier and its
registry entry intact. -/
theorem c6_empty_identifier_rejected :
    (∀ (st : LifeState) (h : Nat),
      constructR st h [] = (some "Object ID cannot be empty".toList, st)) ∧
    (∀ (st : LifeState) (h : Nat),
      registerAsR st h [] = (some "Object ID cannot be empty".toList, st)) :=
  ⟨fun _ _ => rfl, fun _ _ => rfl⟩

end Demo
